import Mathlib

/-!
Verification development for the Linguist-Vision repository
(`src/services/gemini.ts`, `src/App.tsx`, `src/types.ts`).

The repository is a browser front end; the mechanisms under scrutiny are the
audio decode pipeline (`decodeBase64`, `decodeAudioData`), the video-operation
poller inside `generateLessonPrompt`, and the fallback / guard logic of the
service calls.  Each definition below is a shallow embedding of the
corresponding TypeScript, with browser builtins (`atob`, `Int16Array`,
`AudioContext.createBuffer`, `JSON.parse`) modelled by their documented
semantics where the code depends on them.
-/

namespace LinguistVision

/-! ### Base64 (model of the `atob` / `btoa` builtins)

`decodeBase64` in `gemini.ts` calls the browser builtin `atob` and copies the
resulting binary string's char codes into a `Uint8Array`.  We model the binary
string as its list of char codes, so the copy step is the identity and
`decodeBase64` coincides with the `atob` model.  `btoa` (the standard base64
encoder, used by the round-trip property) is modelled alongside. -/

def base64Alphabet : List Char :=
  ['A','B','C','D','E','F','G','H','I','J','K','L','M','N','O','P','Q','R','S',
   'T','U','V','W','X','Y','Z','a','b','c','d','e','f','g','h','i','j','k','l',
   'm','n','o','p','q','r','s','t','u','v','w','x','y','z','0','1','2','3','4',
   '5','6','7','8','9','+','/']

/-- The alphabet character for a 6-bit value. -/
def b64c (n : Nat) : Char := base64Alphabet.getD n 'A'

/-- The 6-bit value of an alphabet character (`none` for a non-alphabet
character, which makes the decoder reject the input as `atob` does). -/
def b64i (c : Char) : Option Nat := base64Alphabet.findIdx? (· = c)

/-- Model of the `btoa` builtin on a list of byte values: standard base64
encoding, 3 bytes to 4 characters, `=`-padded tail. -/
def btoaBytes : List Nat → List Char
  | [] => []
  | [a] => [b64c (a / 4), b64c (a % 4 * 16), '=', '=']
  | [a, b] => [b64c (a / 4), b64c (a % 4 * 16 + b / 16), b64c (b % 16 * 4), '=']
  | a :: b :: c :: rest =>
      b64c (a / 4) :: b64c (a % 4 * 16 + b / 16) ::
      b64c (b % 16 * 4 + c / 64) :: b64c (c % 64) :: btoaBytes rest

/-- Model of the `atob` builtin, returning the char codes of the binary
string (`none` models the `InvalidCharacterError` throw on bad input). -/
def atobChars : List Char → Option (List Nat)
  | [] => some []
  | w :: x :: y :: z :: rest =>
      if y = '=' ∧ z = '=' ∧ rest = [] then do
        let i1 ← b64i w
        let i2 ← b64i x
        pure [i1 * 4 + i2 / 16]
      else if z = '=' ∧ rest = [] then do
        let i1 ← b64i w
        let i2 ← b64i x
        let i3 ← b64i y
        pure [i1 * 4 + i2 / 16, i2 % 16 * 16 + i3 / 4]
      else do
        let i1 ← b64i w
        let i2 ← b64i x
        let i3 ← b64i y
        let i4 ← b64i z
        let tail ← atobChars rest
        pure ((i1 * 4 + i2 / 16) :: (i2 % 16 * 16 + i3 / 4) ::
              (i3 % 4 * 64 + i4) :: tail)
  | _ => none

/-- Model of `decodeBase64` (gemini.ts:155-163): `atob` the input, then copy the char
codes of the resulting binary string one by one into a fresh `Uint8Array`.
Since we represent the binary string by its char-code list, the copy loop is
the identity and the function is the `atob` model itself. -/
def decodeBase64 (base64 : List Char) : Option (List Nat) := atobChars base64

theorem b64_roundtrip : ∀ n, n < 64 → b64i (b64c n) = some n := by decide

theorem b64c_ne_eq : ∀ n, n < 64 → ¬ (b64c n = '=') := by decide

/-- Each 6-bit chunk produced by the encoder is below 64. -/
theorem encode_chunk_lt (a : Nat) (h : a < 256) : a / 4 < 64 := by omega

theorem atob_btoa : ∀ l : List Nat, (∀ b ∈ l, b < 256) →
    atobChars (btoaBytes l) = some l
  | [], _ => rfl
  | [a], h => by
      have ha : a < 256 := h a (by simp)
      have h1 := b64_roundtrip (a / 4) (by omega)
      have h2 := b64_roundtrip (a % 4 * 16) (by omega)
      simp [btoaBytes, atobChars, h1, h2]
      omega
  | [a, b], h => by
      have ha : a < 256 := h a (by simp)
      have hb : b < 256 := h b (by simp)
      have h1 := b64_roundtrip (a / 4) (by omega)
      have h2 := b64_roundtrip (a % 4 * 16 + b / 16) (by omega)
      have h3 := b64_roundtrip (b % 16 * 4) (by omega)
      have hne : ¬ (b64c (b % 16 * 4) = '=') := b64c_ne_eq _ (by omega)
      simp [btoaBytes, atobChars, h1, h2, h3, hne]
      omega
  | a :: b :: c :: rest, h => by
      have ha : a < 256 := h a (by simp)
      have hb : b < 256 := h b (by simp)
      have hc : c < 256 := h c (by simp)
      have ih := atob_btoa rest (fun x hx => h x (by simp [hx]))
      have h1 := b64_roundtrip (a / 4) (by omega)
      have h2 := b64_roundtrip (a % 4 * 16 + b / 16) (by omega)
      have h3 := b64_roundtrip (b % 16 * 4 + c / 64) (by omega)
      have h4 := b64_roundtrip (c % 64) (by omega)
      have hne3 : ¬ (b64c (b % 16 * 4 + c / 64) = '=') := b64c_ne_eq _ (by omega)
      have hne4 : ¬ (b64c (c % 64) = '=') := b64c_ne_eq _ (by omega)
      simp [btoaBytes, atobChars, h1, h2, h3, h4, hne3, hne4, ih]
      omega

/-! ### PCM16 view and the audio decode pipeline

`decodeAudioData` (gemini.ts:165-182) reinterprets the `Uint8Array`'s buffer
as an `Int16Array` (platform byte order; little-endian on all supported
platforms, as the spec states), computes `frameCount = dataInt16.length /
numChannels`, allocates a buffer with `ctx.createBuffer(numChannels,
frameCount, sampleRate)` and fills channel `channel` at frame `i` with
`dataInt16[i * numChannels + channel] / 32768.0`.

Builtin semantics the model relies on:
* `new Int16Array(buffer)` throws a `RangeError` when the buffer's byte
  length is odd (modelled as `DecodeError.oddByteLength`);
* JS `frameCount` is a float division, but it only reaches `createBuffer`
  through a WebIDL `unsigned long` conversion that truncates it, and the
  fill loop's writes past the allocated length are silently dropped by the
  `Float32Array`, so the observable frame count is the floor division;
* `createBuffer` must throw `NotSupportedError` when the channel count or
  the (truncated) frame count is zero (modelled as
  `DecodeError.bufferNotSupported`).  The implementation-defined upper
  channel limit (at least 32) and the sample-rate nominal range are not
  modelled: the model stands for an implementation without those caps, and
  the repository itself only calls with one channel at 24000 Hz.
The `ctx` and `sampleRate` arguments only parameterize the returned
`AudioBuffer` object's metadata, never the sample data, and are dropped. -/

/-- Signed interpretation of a 16-bit unsigned value, as the `Int16Array`
view performs it. -/
def unsignedToInt16 (u : Nat) : Int :=
  if u < 32768 then (u : Int) else (u : Int) - 65536

/-- The `Int16Array` view of a byte list: consecutive little-endian pairs.
`Uint8Array` elements are always below 256 (the store reduces mod 256), so
the per-byte `% 256` is the identity on every representable input. -/
def bytesToInt16 : List Nat → List Int
  | b0 :: b1 :: rest =>
      unsignedToInt16 (b0 % 256 + 256 * (b1 % 256)) :: bytesToInt16 rest
  | _ => []

inductive DecodeError where
  | oddByteLength
  | bufferNotSupported
deriving DecidableEq

/-- Model of `decodeAudioData` (gemini.ts:165-182): `Int16Array` view, floor frame
count, then the per-channel de-interleaving fill loop
`channelData[i] = dataInt16[i * numChannels + channel] / 32768.0`. -/
def decodeAudioData (data : List Nat) (numChannels : Nat) :
    Except DecodeError (List (List ℚ)) :=
  if data.length % 2 ≠ 0 then .error .oddByteLength
  else
    let dataInt16 := bytesToInt16 data
    let frameCount := dataInt16.length / numChannels
    if frameCount = 0 then .error .bufferNotSupported
    else .ok ((List.range numChannels).map fun channel =>
      (List.range frameCount).map fun i =>
        ((dataInt16.getD (i * numChannels + channel) 0 : ℚ)) / 32768)

theorem bytesToInt16_length : ∀ bs : List Nat,
    (bytesToInt16 bs).length = bs.length / 2
  | [] => rfl
  | [_] => by simp [bytesToInt16]
  | _ :: _ :: rest => by
      simp [bytesToInt16, bytesToInt16_length rest]
      omega

theorem bytesToInt16_mem_range : ∀ bs : List Nat, ∀ s ∈ bytesToInt16 bs,
    -32768 ≤ s ∧ s ≤ 32767
  | b0 :: b1 :: rest, s, hs => by
      simp only [bytesToInt16, List.mem_cons] at hs
      rcases hs with h | h
      · subst h
        unfold unsignedToInt16
        have : b0 % 256 + 256 * (b1 % 256) < 65536 := by omega
        split <;> omega
      · exact bytesToInt16_mem_range rest s h

theorem getD_int16_range (bs : List Nat) (j : Nat) :
    -32768 ≤ (bytesToInt16 bs).getD j 0 ∧ (bytesToInt16 bs).getD j 0 ≤ 32767 := by
  rcases h : (bytesToInt16 bs)[j]? with _ | s
  · simp [List.getD, h]
  · have hm : s ∈ bytesToInt16 bs := by
      refine List.get?_mem (n := j) ?_
      rw [List.get?_eq_getElem?, h]
    have hr := bytesToInt16_mem_range bs s hm
    simp [List.getD, h, hr.1, hr.2]

theorem getD_map_range {α : Type} (f : Nat → α) (n i : Nat) (d : α)
    (h : i < n) : ((List.range n).map f).getD i d = f i := by
  rw [List.getD_eq_getElem?_getD, List.getElem?_map, List.getElem?_range h]
  rfl

/-! ### PCM16 encoding (round-trip test harness)

Modelled from the spec: the repository contains no PCM16 encoder — the
round-trip property of spec §8 ("encoding N known float samples to 16-bit
PCM then through the decode pipeline reproduces the original samples within
quantization error (±1/32768)") presupposes a standard encoder.  We model
it as quantization of a sample in [-1, 1) by ⌊x·32768⌋ followed by the
two's-complement little-endian byte serialization that the `Int16Array`
view reads back. -/

/-- Modelled from the spec: quantization of one float sample to a 16-bit
signed value.  Sample values are represented as rationals; the division by
32768 on the decode side is exact in binary floating point for 16-bit
integers, so the rational model is faithful. -/
def encodePCM16 (x : ℚ) : Int := Int.floor (x * 32768)

/-- Modelled from the spec: two's-complement little-endian serialization of
a 16-bit sample (low byte first), the inverse of the `Int16Array` view. -/
def int16ToBytes (s : Int) : List Nat :=
  [(s % 65536).toNat % 256, (s % 65536).toNat / 256]

/-- Modelled from the spec: serialization of an interleaved sample stream. -/
def samplesToBytes : List Int → List Nat
  | [] => []
  | s :: rest => int16ToBytes s ++ samplesToBytes rest

theorem samplesToBytes_length : ∀ ss : List Int,
    (samplesToBytes ss).length = 2 * ss.length
  | [] => rfl
  | s :: rest => by
      simp [samplesToBytes, int16ToBytes, samplesToBytes_length rest]
      omega

theorem samplesToBytes_lt : ∀ ss : List Int, ∀ b ∈ samplesToBytes ss, b < 256
  | s :: rest, b, hb => by
      simp only [samplesToBytes, int16ToBytes, List.cons_append,
        List.nil_append, List.mem_cons] at hb
      rcases hb with h | h | h
      · omega
      · have : (s % 65536).toNat < 65536 := by omega
        omega
      · exact samplesToBytes_lt rest b h

theorem int16_read_write (s : Int) (h1 : -32768 ≤ s) (h2 : s ≤ 32767) :
    unsignedToInt16 ((s % 65536).toNat % 256 % 256 +
      256 * ((s % 65536).toNat / 256 % 256)) = s := by
  have hu : ((s % 65536).toNat : Int) = s % 65536 := by omega
  generalize hgen : (s % 65536).toNat = u at hu
  have h3 : u < 65536 := by omega
  unfold unsignedToInt16
  split <;> omega

theorem bytesToInt16_samplesToBytes : ∀ ss : List Int,
    (∀ s ∈ ss, -32768 ≤ s ∧ s ≤ 32767) →
    bytesToInt16 (samplesToBytes ss) = ss
  | [], _ => rfl
  | s :: rest, h => by
      have hs := h s (by simp)
      have ih := bytesToInt16_samplesToBytes rest (fun x hx => h x (by simp [hx]))
      simp only [samplesToBytes, int16ToBytes, List.cons_append,
        List.nil_append, bytesToInt16, ih, List.cons.injEq, and_true]
      exact ⟨int16_read_write s hs.1 hs.2, by simpa using ih⟩

theorem encodePCM16_range (x : ℚ) (h1 : -1 ≤ x) (h2 : x < 1) :
    -32768 ≤ encodePCM16 x ∧ encodePCM16 x ≤ 32767 := by
  unfold encodePCM16
  constructor
  · have : (-32768 : ℚ) ≤ x * 32768 := by nlinarith
    exact Int.le_floor.mpr (by exact_mod_cast this)
  · have hlt : x * 32768 < ((32768 : Int) : ℚ) := by push_cast; nlinarith
    have := Int.floor_lt.mpr hlt
    omega

theorem encodePCM16_close (x : ℚ) :
    |((encodePCM16 x : ℚ)) / 32768 - x| ≤ 1 / 32768 := by
  unfold encodePCM16
  have h1 : ((Int.floor (x * 32768) : ℚ)) ≤ x * 32768 := Int.floor_le _
  have h2 : x * 32768 < (Int.floor (x * 32768) : ℚ) + 1 := Int.lt_floor_add_one _
  rw [abs_le]
  constructor <;> nlinarith

theorem getD_map_lt {α β : Type} (f : α → β) (l : List α) (i : Nat) (d : β)
    (e : α) (h : i < l.length) : (l.map f).getD i d = f (l.getD i e) := by
  rw [List.getD_eq_getElem?_getD, List.getElem?_map,
    List.getElem?_eq_getElem h, List.getD_eq_getElem?_getD,
    List.getElem?_eq_getElem h]
  rfl

/-- Shared characterization of a successful `decodeAudioData` call: with an
even byte count `2 * N` and `1 ≤ numChannels ≤ N`, the call succeeds and
returns `numChannels` channels of `N / numChannels` frames, channel `ch`
frame `i` holding sample `i * numChannels + ch` divided by 32768. -/
theorem decodeAudioData_ok (bytes : List Nat) (numChannels N : Nat)
    (hN : bytes.length = 2 * N) (hC : 1 ≤ numChannels) (hCN : numChannels ≤ N) :
    ∃ cs, decodeAudioData bytes numChannels = .ok cs
      ∧ cs.length = numChannels
      ∧ (∀ ch, ch < numChannels → (cs.getD ch []).length = N / numChannels)
      ∧ (∀ ch i, ch < numChannels → i < N / numChannels →
          (cs.getD ch []).getD i 0 =
            ((bytesToInt16 bytes).getD (i * numChannels + ch) 0 : ℚ) / 32768) := by
  have hlen : (bytesToInt16 bytes).length = N := by
    rw [bytesToInt16_length, hN]; omega
  have hfc : 0 < N / numChannels := Nat.div_pos hCN (by omega)
  refine ⟨(List.range numChannels).map fun channel =>
      (List.range ((bytesToInt16 bytes).length / numChannels)).map fun i =>
        ((bytesToInt16 bytes).getD (i * numChannels + channel) 0 : ℚ) / 32768,
    ?_, ?_, ?_, ?_⟩
  · simp only [decodeAudioData, hlen]
    rw [if_neg (by omega), if_neg (Nat.pos_iff_ne_zero.mp hfc)]
  · simp
  · intro ch hch
    rw [getD_map_range _ _ _ _ hch]
    simp [hlen]
  · intro ch i hch hi
    rw [getD_map_range _ _ _ _ hch]
    rw [hlen, getD_map_range _ _ _ _ hi]

/-- C1, counterexample.  The byte array `[0, 0]` represents `N = 1` sample;
with `numChannels = 2` the claim demands a successful decode into two
channels of `floor(1/2) = 0` frames with the trailing sample dropped
silently, but the code's buffer-creation step rejects the zero frame count
and the call errors instead. -/
theorem decodeAudioData_undersized_errors :
    decodeAudioData [0, 0] 2 = .error .bufferNotSupported
    ∧ ∀ cs, decodeAudioData [0, 0] 2 ≠ .ok cs := by
  refine ⟨rfl, fun cs h => ?_⟩
  rw [show decodeAudioData [0, 0] 2 = .error .bufferNotSupported from rfl] at h
  cases h

/-- C1 (amended): for a byte array of `N` 16-bit little-endian samples and
`1 ≤ numChannels ≤ N` (so the frame count `floor(N / numChannels)` is
positive), `decodeAudioData` de-interleaves into `numChannels` channels of
exactly `floor(N / numChannels)` frames, channel `ch` frame `i` holding
sample `i * numChannels + ch` (so sample `j` goes to channel `j mod
numChannels`), and a non-dividing channel count silently drops the trailing
samples; when `floor(N / numChannels) = 0` the call instead errors. -/
theorem decodeAudioData_deinterleave (bytes : List Nat) (numChannels N : Nat)
    (hN : bytes.length = 2 * N) (hC : 1 ≤ numChannels) (hCN : numChannels ≤ N) :
    ∃ cs, decodeAudioData bytes numChannels = .ok cs
      ∧ cs.length = numChannels
      ∧ (∀ ch, ch < numChannels → (cs.getD ch []).length = N / numChannels)
      ∧ (∀ ch i, ch < numChannels → i < N / numChannels →
          (cs.getD ch []).getD i 0 =
            ((bytesToInt16 bytes).getD (i * numChannels + ch) 0 : ℚ) / 32768) :=
  decodeAudioData_ok bytes numChannels N hN hC hCN

/-- C1 witness: six bytes (three samples), two channels: the decode
succeeds, each channel has one frame, and the third sample is dropped. -/
theorem decodeAudioData_deinterleave_witness :
    ∃ cs, decodeAudioData [1, 0, 2, 0, 3, 0] 2 = .ok cs
      ∧ cs.length = 2
      ∧ (∀ ch, ch < 2 → (cs.getD ch []).length = 3 / 2)
      ∧ (∀ ch i, ch < 2 → i < 3 / 2 →
          (cs.getD ch []).getD i 0 =
            ((bytesToInt16 [1, 0, 2, 0, 3, 0]).getD (i * 2 + ch) 0 : ℚ) / 32768) :=
  decodeAudioData_deinterleave [1, 0, 2, 0, 3, 0] 2 3 rfl (by omega) (by omega)

/-- C2: every value a successful `decodeAudioData` call stores in a channel
is exactly `s / 32768` for the corresponding 16-bit signed sample `s`, with
`-32768 ≤ s ≤ 32767`, and therefore lies in the half-open interval
`[-1, 1)`. -/
theorem decodeAudioData_values_normalized (bytes : List Nat)
    (numChannels : Nat) (cs : List (List ℚ))
    (h : decodeAudioData bytes numChannels = .ok cs) :
    ∀ chan ∈ cs, ∀ v ∈ chan, ∃ s : Int, -32768 ≤ s ∧ s ≤ 32767 ∧
      v = (s : ℚ) / 32768 ∧ -1 ≤ v ∧ v < 1 := by
  simp only [decodeAudioData] at h
  split at h
  · cases h
  · split at h
    · cases h
    · injection h with h
      subst h
      intro chan hchan v hv
      simp only [List.mem_map, List.mem_range] at hchan
      obtain ⟨ch, hch, rfl⟩ := hchan
      simp only [List.mem_map, List.mem_range] at hv
      obtain ⟨i, hi, rfl⟩ := hv
      obtain ⟨hlo, hhi⟩ := getD_int16_range bytes (i * numChannels + ch)
      refine ⟨(bytesToInt16 bytes).getD (i * numChannels + ch) 0,
        hlo, hhi, rfl, ?_, ?_⟩
      · have hq : ((-32768 : Int) : ℚ) ≤
            ((bytesToInt16 bytes).getD (i * numChannels + ch) 0 : ℚ) := by
          exact_mod_cast hlo
        push_cast at hq
        linarith
      · have hq : ((bytesToInt16 bytes).getD (i * numChannels + ch) 0 : ℚ) ≤
            ((32767 : Int) : ℚ) := by exact_mod_cast hhi
        push_cast at hq
        linarith

/-- C2 witness: the value 0 of a concrete successful decode is a
normalized 16-bit sample. -/
theorem decodeAudioData_values_normalized_witness :
    ∃ s : Int, -32768 ≤ s ∧ s ≤ 32767 ∧ (0 : ℚ) = (s : ℚ) / 32768
      ∧ -1 ≤ (0 : ℚ) ∧ (0 : ℚ) < 1 :=
  decodeAudioData_values_normalized [0, 0] 1 [[0]] (by
      simp [decodeAudioData, bytesToInt16, unsignedToInt16, List.range_succ])
    [(0 : ℚ)] (by simp) 0 (by simp)

/-- C10: an odd byte count makes the `Int16Array` construction throw, so
`decodeAudioData` fails rather than decoding a truncated sample sequence;
a successful decode forces an even byte count. -/
theorem decodeAudioData_odd_byte_length (bytes : List Nat)
    (numChannels : Nat) :
    (bytes.length % 2 = 1 → decodeAudioData bytes numChannels = .error .oddByteLength)
    ∧ (∀ cs, decodeAudioData bytes numChannels = .ok cs → bytes.length % 2 = 0) := by
  constructor
  · intro h
    unfold decodeAudioData
    rw [if_pos (by omega)]
  · intro cs h
    by_contra hodd
    unfold decodeAudioData at h
    rw [if_pos (by omega)] at h
    cases h

/-- C10 witness: a one-byte input fails with the odd-length error. -/
theorem decodeAudioData_odd_byte_length_witness :
    decodeAudioData [0] 1 = .error .oddByteLength :=
  (decodeAudioData_odd_byte_length [0] 1).1 rfl

/-- C4: quantizing a sequence of samples in `[-1, 1)` to 16-bit PCM,
serializing, base64-encoding, and running the result through the decode
pipeline (`decodeBase64`, `Int16Array` view, normalization by 32768) with
channel count 1 reproduces every original sample within `1/32768`.  The
encoder is modelled from the spec (the repository has none). -/
theorem audio_roundtrip (xs : List ℚ) (hx : ∀ x ∈ xs, -1 ≤ x ∧ x < 1) :
    ∃ bytes, decodeBase64 (btoaBytes (samplesToBytes (xs.map encodePCM16))) = some bytes
      ∧ ∀ i, i < xs.length →
        ∃ cs, decodeAudioData bytes 1 = .ok cs
          ∧ cs.length = 1
          ∧ (cs.getD 0 []).length = xs.length
          ∧ |(cs.getD 0 []).getD i 0 - xs.getD i 0| ≤ 1 / 32768 := by
  have hrange : ∀ s ∈ xs.map encodePCM16, -32768 ≤ s ∧ s ≤ 32767 := by
    intro s hs
    simp only [List.mem_map] at hs
    obtain ⟨x, hxm, rfl⟩ := hs
    exact encodePCM16_range x (hx x hxm).1 (hx x hxm).2
  refine ⟨samplesToBytes (xs.map encodePCM16),
    atob_btoa _ (samplesToBytes_lt _), ?_⟩
  intro i hi
  have hsamples : bytesToInt16 (samplesToBytes (xs.map encodePCM16)) =
      xs.map encodePCM16 := bytesToInt16_samplesToBytes _ hrange
  have hN : (samplesToBytes (xs.map encodePCM16)).length = 2 * xs.length := by
    rw [samplesToBytes_length, List.length_map]
  obtain ⟨cs, hok, hlen1, hchl, hval⟩ :=
    decodeAudioData_ok (samplesToBytes (xs.map encodePCM16)) 1 xs.length hN
      (le_refl 1) (by omega)
  refine ⟨cs, hok, hlen1, ?_, ?_⟩
  · have := hchl 0 (by omega)
    simpa using this
  · have hv := hval 0 i (by omega) (by simpa using hi)
    rw [hsamples] at hv
    have hm : (xs.map encodePCM16).getD (i * 1 + 0) 0 =
        encodePCM16 (xs.getD (i * 1 + 0) 0) :=
      getD_map_lt encodePCM16 xs (i * 1 + 0) 0 0 (by simpa using hi)
    rw [hm] at hv
    simp only [Nat.mul_one, Nat.add_zero] at hv
    rw [hv]
    exact encodePCM16_close (xs.getD i 0)

/-- C4 witness: the singleton sample `1/2` survives the round trip. -/
theorem audio_roundtrip_witness :
    ∃ bytes, decodeBase64 (btoaBytes (samplesToBytes
        (([(1 : ℚ)/2]).map encodePCM16))) = some bytes
      ∧ ∀ i, i < ([(1 : ℚ)/2]).length →
        ∃ cs, decodeAudioData bytes 1 = .ok cs
          ∧ cs.length = 1
          ∧ (cs.getD 0 []).length = ([(1 : ℚ)/2]).length
          ∧ |(cs.getD 0 []).getD i 0 - ([(1 : ℚ)/2]).getD i 0| ≤ 1 / 32768 :=
  audio_roundtrip [(1 : ℚ)/2] (by norm_num)

/-! ### Video-operation poller (gemini.ts:50-68)

The video branch of `generateLessonPrompt` submits a job and then runs
`while (!operation.done) { await delay(10000); operation = await
ai.operations.getVideosOperation(...) }`.  We model the sequence of job
statuses the service would report as a function from check index to
`Except String Bool` (`.error` models a thrown network/service error on
that status call, `.ok done` a successful status report; index 0 is the
status of the initial submission result).  The loop itself is unbounded;
to state facts about it we add a fuel argument counting how many re-checks
the model is willing to unfold — `exhausted` means the loop is still
pending after that many re-checks, for any fuel, which is how the absence
of an attempt limit or timeout is expressed. -/

inductive PollEvent where
  | delay (ms : Nat)
  | check
deriving DecidableEq

inductive PollOutcome where
  | completed (events : List PollEvent) (doneIndex : Nat)
  | failed (events : List PollEvent) (msg : String)
  | exhausted
deriving DecidableEq

/-- One run of the poll loop: at each pending status the loop sleeps 10000
ms and re-checks; a thrown status call propagates immediately (no
retry-on-error); a done status ends the loop with no further delay. -/
def pollVideoOperation (statuses : Nat → Except String Bool) :
    Nat → Nat → PollOutcome
  | 0, idx =>
    match statuses idx with
    | .error e => .failed [] e
    | .ok true => .completed [] idx
    | .ok false => .exhausted
  | f + 1, idx =>
    match statuses idx with
    | .error e => .failed [] e
    | .ok true => .completed [] idx
    | .ok false =>
      match pollVideoOperation statuses f (idx + 1) with
      | .completed evs k => .completed (.delay 10000 :: .check :: evs) k
      | .failed evs e => .failed (.delay 10000 :: .check :: evs) e
      | .exhausted => .exhausted

theorem poll_step_error (statuses : Nat → Except String Bool)
    (fuel idx : Nat) (e : String) (h : statuses idx = .error e) :
    pollVideoOperation statuses fuel idx = .failed [] e := by
  cases fuel <;> (simp only [pollVideoOperation, h])

theorem poll_step_done (statuses : Nat → Except String Bool)
    (fuel idx : Nat) (h : statuses idx = .ok true) :
    pollVideoOperation statuses fuel idx = .completed [] idx := by
  cases fuel <;> (simp only [pollVideoOperation, h])

theorem poll_step_pending (statuses : Nat → Except String Bool)
    (f idx : Nat) (h : statuses idx = .ok false) :
    pollVideoOperation statuses (f + 1) idx =
      match pollVideoOperation statuses f (idx + 1) with
      | .completed evs k => .completed (.delay 10000 :: .check :: evs) k
      | .failed evs e => .failed (.delay 10000 :: .check :: evs) e
      | .exhausted => .exhausted := by
  simp only [pollVideoOperation, h]

theorem poll_all_pending (statuses : Nat → Except String Bool)
    (h : ∀ k, statuses k = .ok false) : ∀ fuel idx,
    pollVideoOperation statuses fuel idx = .exhausted
  | 0, idx => by
      simp only [pollVideoOperation, h idx]
  | f + 1, idx => by
      rw [poll_step_pending statuses f idx (h idx),
        poll_all_pending statuses h f (idx + 1)]

/-- C3: a job pending on checks 0, 1, 2 and done on check 3 makes the
poller perform exactly 3 re-checks, each preceded by the fixed 10000 ms
delay, before completing at check 3; a perpetually pending job exhausts
every fuel bound (no attempt limit or timeout), and a status call that
throws propagates at once with no delay and no retry (retry-on-pending
only, never retry-on-error). -/
theorem poller_three_rechecks (statuses : Nat → Except String Bool)
    (h0 : statuses 0 = .ok false) (h1 : statuses 1 = .ok false)
    (h2 : statuses 2 = .ok false) (h3 : statuses 3 = .ok true)
    (fuel : Nat) (hf : 3 ≤ fuel) :
    pollVideoOperation statuses fuel 0 =
      .completed [.delay 10000, .check, .delay 10000, .check,
        .delay 10000, .check] 3
    ∧ (∀ g : Nat → Except String Bool, (∀ k, g k = .ok false) →
        ∀ f idx, pollVideoOperation g f idx = .exhausted)
    ∧ (∀ g : Nat → Except String Bool, ∀ e f idx, g idx = .error e →
        pollVideoOperation g f idx = .failed [] e) := by
  obtain ⟨f, rfl⟩ : ∃ f, fuel = f + 3 := ⟨fuel - 3, by omega⟩
  refine ⟨?_, poll_all_pending, fun g e f idx h => poll_step_error g f idx e h⟩
  have e3 : pollVideoOperation statuses f 3 = .completed [] 3 :=
    poll_step_done statuses f 3 h3
  have e2 : pollVideoOperation statuses (f + 1) 2 =
      .completed [.delay 10000, .check] 3 := by
    rw [poll_step_pending statuses f 2 h2, e3]
  have e1 : pollVideoOperation statuses (f + 2) 1 =
      .completed [.delay 10000, .check, .delay 10000, .check] 3 := by
    rw [poll_step_pending statuses (f + 1) 1 h1, e2]
  rw [poll_step_pending statuses (f + 2) 0 h0, e1]

/-- C3 witness: the status stream that is done exactly at check 3. -/
theorem poller_three_rechecks_witness :
    pollVideoOperation (fun k => .ok (k == 3)) 5 0 =
      .completed [.delay 10000, .check, .delay 10000, .check,
        .delay 10000, .check] 3 :=
  (poller_three_rechecks (fun k => .ok (k == 3)) rfl rfl rfl rfl 5
    (by omega)).1

/-! ### Fallbacks of `generateLessonPrompt` (gemini.ts:7-70)

The description call's `.text` is `string | undefined`; we model it as
`Option String`, with `none` for `undefined`.  The `||` substitution at
line 32 replaces any falsy value (absent or empty) by the fixed fallback.
The image response's candidate parts are modelled by each part's optional
`inlineData.data` payload; an absent candidate or content collapses to the
empty part list, which the `?? []` / optional-chaining in the source also
produces. -/

/-- The fixed fallback description (gemini.ts:32). -/
def fallbackVisualPrompt : String :=
  "A professional office scene showing a business analyst working on project requirements."

/-- gemini.ts:32: `promptRequest.text || fallback`. -/
def visualPromptOf (responseText : Option String) : String :=
  match responseText with
  | none => fallbackVisualPrompt
  | some s => if s = "" then fallbackVisualPrompt else s

/-- gemini.ts:41-47: `imageUrl` starts as `""`; the loop takes the first
part carrying an `inlineData` payload and builds the data URI from it. -/
def imageUrlOf (parts : List (Option String)) : String :=
  match parts with
  | [] => ""
  | none :: rest => imageUrlOf rest
  | some d :: _ => "data:image/png;base64," ++ d

structure LessonMediaResult where
  url : String
  promptText : String

/-- The image branch of `generateLessonPrompt` (gemini.ts:34-48): first
component is the prompt text sent to the image model, second the returned
`{ url, promptText }`. -/
def generateLessonPromptImage (responseText : Option String)
    (parts : List (Option String)) : String × LessonMediaResult :=
  let visualPrompt := visualPromptOf responseText
  (visualPrompt, { url := imageUrlOf parts, promptText := visualPrompt })

/-- The prompt the video branch submits to `generateVideos`
(gemini.ts:50-58). -/
def generateLessonPromptVideoPrompt (responseText : Option String) : String :=
  visualPromptOf responseText

/-- C5: an empty (or absent) description-generation result makes both
branches of `generateLessonPrompt` use the fixed fallback verbatim as the
prompt sent downstream and as the returned `promptText`; the prompt sent
downstream is never empty for any response text. -/
theorem fallback_on_empty_description (responseText : Option String)
    (parts : List (Option String))
    (h : responseText = none ∨ responseText = some "") :
    (generateLessonPromptImage responseText parts).1 = fallbackVisualPrompt
    ∧ (generateLessonPromptImage responseText parts).2.promptText =
        fallbackVisualPrompt
    ∧ generateLessonPromptVideoPrompt responseText = fallbackVisualPrompt
    ∧ fallbackVisualPrompt ≠ ""
    ∧ ∀ t, visualPromptOf t ≠ "" := by
  have hv : visualPromptOf responseText = fallbackVisualPrompt := by
    rcases h with rfl | rfl <;> simp [visualPromptOf]
  have hne : fallbackVisualPrompt ≠ "" := by decide
  refine ⟨hv, hv, hv, hne, ?_⟩
  intro t
  rcases t with _ | s
  · exact hne
  · by_cases hs : s = ""
    · simp [visualPromptOf, hs, hne]
    · simp [visualPromptOf, hs]

/-- C5 witness: the empty response text yields the fallback. -/
theorem fallback_on_empty_description_witness :
    (generateLessonPromptImage (some "") []).1 = fallbackVisualPrompt
    ∧ (generateLessonPromptImage (some "") []).2.promptText =
        fallbackVisualPrompt
    ∧ generateLessonPromptVideoPrompt (some "") = fallbackVisualPrompt
    ∧ fallbackVisualPrompt ≠ ""
    ∧ ∀ t, visualPromptOf t ≠ "" :=
  fallback_on_empty_description (some "") [] (Or.inr rfl)

/-- C6: with no inline payload among the image response's parts the
produced locator is the empty string, and with a first inline payload `d`
(after any number of payload-free parts) it is the data URI built from
`d`. -/
theorem image_url_extraction (parts : List (Option String)) :
    ((∀ p ∈ parts, p = none) → imageUrlOf parts = "")
    ∧ (∀ pre d post, parts = pre ++ (some d :: post) →
        (∀ p ∈ pre, p = none) →
        imageUrlOf parts = "data:image/png;base64," ++ d) := by
  induction parts with
  | nil =>
      refine ⟨fun _ => rfl, ?_⟩
      intro pre d post hp _
      cases pre <;> simp at hp
  | cons p rest ih =>
      constructor
      · intro h
        have hp := h p (by simp)
        subst hp
        simpa [imageUrlOf] using ih.1 (fun q hq => h q (by simp [hq]))
      · intro pre d post hp hpre
        cases pre with
        | nil =>
            simp only [List.nil_append] at hp
            rw [hp]
            rfl
        | cons q qre =>
            simp only [List.cons_append, List.cons.injEq] at hp
            obtain ⟨hpq, hrest⟩ := hp
            have hq : q = none := hpre q (by simp)
            subst hq
            subst hpq
            simp only [imageUrlOf]
            exact ih.2 qre d post hrest (fun x hx => hpre x (by simp [hx]))

/-- C6 witness: no payload gives `""`; a payload after a payload-free part
gives its data URI. -/
theorem image_url_extraction_witness :
    imageUrlOf [none, none] = ""
    ∧ imageUrlOf [none, some "abc"] = "data:image/png;base64," ++ "abc" :=
  ⟨(image_url_extraction [none, none]).1 (by simp),
   (image_url_extraction [none, some "abc"]).2 [none] "abc" [] rfl (by simp)⟩

/-! ### `generateSpeech` (gemini.ts:135-153) -/

/-- The speech response: each candidate is its list of parts, each part its
optional `inlineData.data` payload (an absent candidate, content or part
collapses to the same `none` the optional chain produces). -/
structure SpeechResponse where
  candidates : List (List (Option String))

/-- gemini.ts:150: `response.candidates?.[0]?.content?.parts?.[0]?.inlineData?.data`. -/
def firstAudioPayload (r : SpeechResponse) : Option String :=
  match r.candidates with
  | (d :: _) :: _ => d
  | _ => none

/-- gemini.ts:150-152: throw the named error when the extracted payload is
falsy (absent or the empty string), else return it unchanged. -/
def generateSpeech (r : SpeechResponse) : Except String String :=
  match firstAudioPayload r with
  | none => .error "No audio data received"
  | some s => if s = "" then .error "No audio data received" else .ok s

/-- An inline audio payload is present: a non-empty `data` string in the
first candidate's first part (an empty string is falsy in the source's
guard, hence counts as absent). -/
def hasAudioPayload (r : SpeechResponse) : Prop :=
  ∃ s, firstAudioPayload r = some s ∧ s ≠ ""

/-- C7: `generateSpeech` errors exactly when no inline audio payload is
present in the first candidate's first part, the error is the named one,
and a present payload is returned verbatim with no fallback. -/
theorem generateSpeech_guard (r : SpeechResponse) :
    ((∃ e, generateSpeech r = .error e) ↔ ¬ hasAudioPayload r)
    ∧ (∀ e, generateSpeech r = .error e → e = "No audio data received")
    ∧ (∀ s, firstAudioPayload r = some s → s ≠ "" →
        generateSpeech r = .ok s) := by
  have hok : ∀ s, firstAudioPayload r = some s → s ≠ "" →
      generateSpeech r = .ok s := by
    intro s hf hs
    simp [generateSpeech, hf, hs]
  refine ⟨⟨?_, ?_⟩, ?_, hok⟩
  · rintro ⟨e, he⟩ ⟨s, hf, hs⟩
    rw [hok s hf hs] at he
    cases he
  · intro h
    rcases hf : firstAudioPayload r with _ | s
    · exact ⟨"No audio data received", by simp [generateSpeech, hf]⟩
    · have hs : s = "" := by
        by_contra hs
        exact h ⟨s, hf, hs⟩
      subst hs
      exact ⟨"No audio data received", by simp [generateSpeech, hf]⟩
  · intro e he
    rcases hf : firstAudioPayload r with _ | s
    · have hr : generateSpeech r = .error "No audio data received" := by
        simp [generateSpeech, hf]
      rw [hr] at he
      injection he with he
      exact he.symm
    · by_cases hs : s = ""
      · subst hs
        have hr : generateSpeech r = .error "No audio data received" := by
          simp [generateSpeech, hf]
        rw [hr] at he
        injection he with he
        exact he.symm
      · rw [hok s hf hs] at he
        cases he

/-- C7 witness: a present payload is returned as-is. -/
theorem generateSpeech_guard_witness :
    generateSpeech ⟨[[some "UklGRg"]]⟩ = .ok "UklGRg" :=
  (generateSpeech_guard ⟨[[some "UklGRg"]]⟩).2.2 "UklGRg" rfl (by decide)

/-! ### `evaluateDescription` (gemini.ts:72-133)

The function ends with `return JSON.parse(response.text || '{}')`.
`JSON.parse` is a JS-engine builtin; it enters the model as a parameter
`jsonParse`, with `.error` standing for the `SyntaxError` throw and the
contract "parsing the two-character object literal yields the empty
object" supplied as a hypothesis where needed.  Nothing inspects the parsed
value: no required field (`score`, `corrections`, `vocabularySuggestions`,
`overallComment`, `modelSampleDescription`) is checked before the value is
returned to the caller. -/

inductive Json where
  | null
  | bool (b : Bool)
  | num (q : ℚ)
  | str (s : String)
  | arr (elems : List Json)
  | obj (fields : List (String × Json))

/-- gemini.ts:132: `JSON.parse(response.text || '{}')`. -/
def evaluateDescription (jsonParse : String → Except String Json)
    (responseText : Option String) : Except String Json :=
  jsonParse (match responseText with
    | none => "\x7b\x7d"
    | some s => if s = "" then "\x7b\x7d" else s)

/-- C8: `evaluateDescription` returns exactly what the JSON parser makes of
the response text — the parse error when non-empty text fails to parse, the
raw parsed value otherwise, with no validation of any required field — and
an empty (or absent) text defaults to the parse of the empty object
literal, i.e. the empty object. -/
theorem evaluateDescription_parse_or_default
    (jsonParse : String → Except String Json)
    (hempty : jsonParse "\x7b\x7d" = .ok (Json.obj []))
    (responseText : Option String) :
    ((responseText = none ∨ responseText = some "") →
      evaluateDescription jsonParse responseText = .ok (Json.obj []))
    ∧ (∀ s, responseText = some s → s ≠ "" →
        evaluateDescription jsonParse responseText = jsonParse s) := by
  constructor
  · rintro (rfl | rfl) <;> simpa [evaluateDescription] using hempty
  · rintro s rfl hs
    simp [evaluateDescription, hs]

/-- C8 witness: with a parser honoring the empty-object contract, an
absent response text yields the empty object. -/
theorem evaluateDescription_parse_or_default_witness :
    evaluateDescription
      (fun s => if s = "\x7b\x7d" then .ok (Json.obj [])
        else .error "SyntaxError") none = .ok (Json.obj []) :=
  (evaluateDescription_parse_or_default
    (fun s => if s = "\x7b\x7d" then .ok (Json.obj [])
      else .error "SyntaxError") (by simp) none).1 (Or.inl rfl)

/-! ### History and the score bound (types.ts, App.tsx:195-220)

`handleSubmitDescription` stores the value returned by
`evaluateDescription` into a new `HistoryItem` verbatim; no code clamps or
validates `score`.  The random id and `Date.now()` timestamp enter as
parameters, as does the already-awaited evaluation result (the failure
path leaves the history unchanged and is not modelled further). -/

inductive Difficulty where
  | Beginner
  | Intermediate
  | Advanced

inductive MediaType where
  | image
  | video

structure LessonPrompt where
  id : String
  type : MediaType
  url : String
  description : String
  topic : String
  difficulty : Difficulty

structure Correction where
  original : String
  correction : String
  explanation : String

structure Feedback where
  score : ℚ
  corrections : List Correction
  vocabularySuggestions : List String
  overallComment : String
  modelSampleDescription : String

structure HistoryItem where
  id : String
  prompt : LessonPrompt
  userDescription : String
  feedback : Feedback
  timestamp : Nat

def dropWhileWhitespace : List Char → List Char
  | [] => []
  | c :: rest => if c.isWhitespace then dropWhileWhitespace rest else c :: rest

/-- Model of the `String.prototype.trim` builtin: strip whitespace from
both ends. -/
def trimString (s : String) : String :=
  ⟨(dropWhileWhitespace (dropWhileWhitespace s.data.reverse).reverse)⟩

/-- App.tsx:195-220: guard on blank text / missing prompt, then prepend the
new item carrying the evaluation result unchanged. -/
def handleSubmitDescription (userText : String)
    (currentPrompt : Option LessonPrompt) (evalResult : Feedback)
    (newId : String) (now : Nat) (history : List HistoryItem) :
    List HistoryItem :=
  match currentPrompt with
  | none => history
  | some cp =>
    if trimString userText = "" then history
    else { id := newId, prompt := cp, userDescription := userText,
           feedback := evalResult, timestamp := now } :: history

def sampleLessonPrompt : LessonPrompt :=
  { id := "p1", type := .image, url := "", description := "a desk",
    topic := "Office", difficulty := .Beginner }

/-- An evaluation result whose score exceeds 100, as an unvalidated
`JSON.parse` of a response such as `\x7b"score":150,...\x7d` produces. -/
def overScoreFeedback : Feedback :=
  { score := 150, corrections := [], vocabularySuggestions := [],
    overallComment := "", modelSampleDescription := "" }

/-- C9, counterexample: nothing bounds the score — an evaluation response
carrying score 150 is stored as-is, so the appended `HistoryItem` violates
the claimed `[0, 100]` invariant. -/
theorem history_score_unbounded :
    handleSubmitDescription "ok" (some sampleLessonPrompt) overScoreFeedback
        "h1" 7 []
      = [{ id := "h1", prompt := sampleLessonPrompt, userDescription := "ok",
           feedback := overScoreFeedback, timestamp := 7 }]
    ∧ ¬ (overScoreFeedback.score ≤ 100) := by
  constructor
  · simp only [handleSubmitDescription]
    rw [if_neg (by decide)]
  · norm_num [overScoreFeedback]

/-- C9 (amended): every appended `HistoryItem` stores the evaluation
result's `Feedback` verbatim, so the `[0, 100]` score bound is an invariant
of the history only under the assumption that every evaluation response's
score already satisfies it. -/
theorem history_score_invariant (userText : String)
    (currentPrompt : Option LessonPrompt) (evalResult : Feedback)
    (newId : String) (now : Nat) (history : List HistoryItem)
    (hscore : 0 ≤ evalResult.score ∧ evalResult.score ≤ 100)
    (hhist : ∀ it ∈ history, 0 ≤ it.feedback.score ∧ it.feedback.score ≤ 100) :
    (∀ it ∈ handleSubmitDescription userText currentPrompt evalResult newId
        now history, 0 ≤ it.feedback.score ∧ it.feedback.score ≤ 100)
    ∧ (∀ it ∈ handleSubmitDescription userText currentPrompt evalResult newId
        now history, it ∈ history ∨ it.feedback = evalResult) := by
  rcases currentPrompt with _ | cp
  · refine ⟨fun it hit => hhist it hit, fun it hit => Or.inl hit⟩
  · by_cases ht : trimString userText = ""
    · have heq : handleSubmitDescription userText (some cp) evalResult newId
          now history = history := by
        simp only [handleSubmitDescription]
        rw [if_pos ht]
      rw [heq]
      exact ⟨fun it hit => hhist it hit, fun it hit => Or.inl hit⟩
    · have heq : handleSubmitDescription userText (some cp) evalResult newId
          now history =
          { id := newId, prompt := cp, userDescription := userText,
            feedback := evalResult, timestamp := now } :: history := by
        simp only [handleSubmitDescription]
        rw [if_neg ht]
      rw [heq]
      constructor
      · intro it hit
        rcases List.mem_cons.mp hit with rfl | hmem
        · exact hscore
        · exact hhist it hmem
      · intro it hit
        rcases List.mem_cons.mp hit with rfl | hmem
        · exact Or.inr rfl
        · exact Or.inl hmem

def inRangeFeedback : Feedback :=
  { score := 80, corrections := [], vocabularySuggestions := [],
    overallComment := "", modelSampleDescription := "" }

def inRangeHistoryItem : HistoryItem :=
  { id := "h1", prompt := sampleLessonPrompt, userDescription := "ok",
    feedback := inRangeFeedback, timestamp := 7 }

/-- C9 witness: an in-range evaluation result keeps the appended item's
score in bounds. -/
theorem history_score_invariant_witness :
    0 ≤ inRangeHistoryItem.feedback.score
    ∧ inRangeHistoryItem.feedback.score ≤ 100 :=
  (history_score_invariant "ok" (some sampleLessonPrompt) inRangeFeedback
    "h1" 7 [] ⟨by norm_num [inRangeFeedback], by norm_num [inRangeFeedback]⟩
    (by simp)).1 inRangeHistoryItem
    (by
      simp only [handleSubmitDescription, inRangeHistoryItem]
      rw [if_neg (by decide)]
      exact List.mem_cons_self _ _)

end LinguistVision
